import Mathlib

/-!
Shallow embedding of the ewok consensus core (src/block.rs, src/chain.rs,
src/routing_table.rs).  Names are 64-bit identifiers, modelled as `Nat`;
`BTreeMap<Name, bool>` is modelled as an association list sorted by key
(`Mp`), `BTreeSet<Name>` as a sorted list of names.  Rust assertions and
index panics are modelled by `Option`: `none` means the operation aborts.
-/

set_option autoImplicit false

namespace Ewok

/-- Node identifier.  Modelled from the spec: `src/name.rs` is not under
`src/`; the spec describes names as fixed-length (64-bit) identifiers with
equality and ordering. -/
abbrev Name := Nat

/-- Modelled from the spec: `src/name.rs` is not under `src/`; the spec
describes prefixes as variable-length bit-prefixes over 64-bit names.
`len` is the number of leading bits, `bits` their value. -/
structure Pfx where
  len : Nat
  bits : Nat
deriving DecidableEq, Repr, Ord

/-- Modelled from the spec: a prefix matches a name when the name's leading
`len` bits equal `bits`. -/
def Pfx.matches (p : Pfx) (n : Name) : Bool :=
  decide (n / 2 ^ (64 - p.len) = p.bits)

/-- `BTreeMap<Name, bool>` (vote map): association list in key order. -/
abbrev Mp := List (Name × Bool)

/-- Key list of a vote map (`BTreeMap::keys`). -/
def keysMp (m : Mp) : List Name := m.map (fun p => p.1)

/-- `BTreeMap::contains_key`. -/
def containsKey (m : Mp) (k : Name) : Bool :=
  match m with
  | [] => false
  | p :: r => if p.1 = k then true else containsKey r k

/-- `BTreeMap::get`. -/
def getMp (m : Mp) (k : Name) : Option Bool :=
  match m with
  | [] => none
  | p :: r => if p.1 = k then some p.2 else getMp r k

/-- Insertion in key position, used by `BTreeMap::insert` when the key is
absent. -/
def insMpSorted (k : Name) (v : Bool) : Mp → Mp
  | [] => [(k, v)]
  | p :: r =>
    if k < p.1 then (k, v) :: p :: r
    else if k = p.1 then (k, v) :: r
    else p :: insMpSorted k v r

/-- `BTreeMap::insert`: replace the value in place when the key is present,
otherwise insert at the key's position. -/
def insertMp (k : Name) (v : Bool) (m : Mp) : Mp :=
  if containsKey m k then m.map (fun p => if p.1 = k then (p.1, v) else p)
  else insMpSorted k v m

/-- `BTreeMap::remove` (by key). -/
def removeMp (k : Name) (m : Mp) : Mp :=
  m.filter (fun p => decide (p.1 ≠ k))

/-- `BTreeSet<Name>`: insertion keeping the list sorted and duplicate-free. -/
def insertSet (k : Name) : List Name → List Name
  | [] => [k]
  | x :: r =>
    if k < x then k :: x :: r
    else if k = x then x :: r
    else x :: insertSet k r

/-- `BTreeSet::contains`. -/
def setMem (s : List Name) (k : Name) : Bool :=
  match s with
  | [] => false
  | x :: r => if x = k then true else setMem r k

/-- `collect::<BTreeSet<_>>()` from a list of names. -/
def collectSet (l : List Name) : List Name :=
  l.foldl (fun s n => insertSet n s) []

/-- `NetworkEvent` (src/block.rs). -/
inductive NetworkEvent where
  | nodeGained (n : Name)
  | nodeLost (n : Name)
  | merge (p : Pfx)
  | split (p : Pfx)
deriving DecidableEq, Repr, Ord

/-- `BlockId` (src/block.rs): identity derived solely from the event. -/
structure BlockId where
  event : NetworkEvent
deriving DecidableEq, Repr, Ord

/-- `Block` (src/block.rs). -/
structure Block where
  event : NetworkEvent
  members : Mp
  invalid_votes : List Name
deriving DecidableEq, Repr

def Block.get_id (b : Block) : BlockId := ⟨b.event⟩

/-- `Block::genesis`. -/
def Block.genesis (event : NetworkEvent) : Block :=
  { event := event, members := [], invalid_votes := [] }

/-- `Block::clone_members`: the members with every vote reset to `false`. -/
def Block.clone_members (b : Block) : Mp :=
  b.members.map (fun p => (p.1, false))

/-- `Block::apply_event`: the membership this block's event produces from its
own members.  `none` models the `assert!` failure on `NodeLost` of an absent
name. -/
def Block.apply_event (b : Block) : Option Mp :=
  let ms := b.clone_members
  match b.event with
  | .nodeGained n => some (insertMp n false ms)
  | .nodeLost n => if containsKey ms n then some (removeMp n ms) else none
  | .split p => some (ms.filter (fun q => p.matches q.1))
  | .merge _ => some ms

/-- `Block::adjust_votes`: recompute members/invalid votes against a new
member map. -/
def Block.adjust_votes (b : Block) (other : Mp) : Block :=
  let new_members : Mp :=
    other.map (fun p =>
      (p.1, ((getMp b.members p.1).getD false || setMem b.invalid_votes p.1)))
  let new_invalid : List Name :=
    collectSet
      (((b.members.filter (fun q => q.2 && !(containsKey new_members q.1))).map
          (fun q => q.1)) ++
        b.invalid_votes.filter (fun n => !(containsKey new_members n)))
  { b with members := new_members, invalid_votes := new_invalid }

/-- `Block::add_vote`. -/
def Block.add_vote (b : Block) (voter : Name) : Block :=
  if containsKey b.members voter then
    { b with members := insertMp voter true b.members }
  else
    { b with invalid_votes := insertSet voter b.invalid_votes }

/-- `Block::from_event`: derive a successor block; its members are the
membership produced by `self`'s own event. -/
def Block.from_event (b : Block) (event : NetworkEvent) : Option Block :=
  (b.apply_event).map (fun m => { event := event, members := m, invalid_votes := [] })

/-- `Block::node_added`. -/
def Block.node_added (b : Block) (added : Name) : Option Block :=
  b.from_event (.nodeGained added)

/-- `Block::node_removed`. -/
def Block.node_removed (b : Block) (removed : Name) : Option Block :=
  b.from_event (.nodeLost removed)

/-- `Block::section_split`. -/
def Block.section_split (b : Block) (toP : Pfx) : Option Block :=
  b.from_event (.split toP)

/-- `Block::section_merge`. -/
def Block.section_merge (b : Block) (toP : Pfx) : Option Block :=
  b.from_event (.merge toP)

/-- `Block::has_consensus`: strict majority of `members` voted. -/
def Block.has_consensus (b : Block) : Bool :=
  decide ((b.members.filter (fun p => p.2)).length * 2 > b.members.length)

/-- `BTreeMap<BlockId, usize>` index of a chain. -/
abbrev Idx := List (BlockId × Nat)

/-- `BTreeMap::insert` on the index. -/
def idxInsert (k : BlockId) (v : Nat) : Idx → Idx
  | [] => [(k, v)]
  | p :: r => if p.1 = k then (k, v) :: r else p :: idxInsert k v r

/-- `BTreeMap::get` on the index. -/
def idxGet (i : Idx) (k : BlockId) : Option Nat :=
  match i with
  | [] => none
  | p :: r => if p.1 = k then some p.2 else idxGet r k

/-- `Chain` (src/chain.rs). -/
structure Chain where
  blocks : List Block
  index : Idx
deriving DecidableEq, Repr

/-- `Chain::new`. -/
def Chain.new : Chain := ⟨[], []⟩

/-- `Chain::append`. -/
def Chain.append (c : Chain) (b : Block) : Chain :=
  ⟨c.blocks ++ [b], idxInsert b.get_id c.blocks.length c.index⟩

/-- Helper for `Chain::last_valid`: index of the last block with consensus,
counting from `i`. -/
def lastValidAux : List Block → Nat → Option Nat
  | [], _ => none
  | b :: r, i =>
    match lastValidAux r (i + 1) with
    | some j => some j
    | none => if b.has_consensus then some i else none

/-- `Chain::last_valid`. -/
def Chain.last_valid (c : Chain) : Option Nat :=
  lastValidAux c.blocks 0

/-- The recompute walk of `Chain::swap_blocks`: starting from a predecessor,
re-derive each following block's members via `apply_event`/`adjust_votes`. -/
def walkAdjust (prev : Block) : List Block → Option (List Block)
  | [] => some []
  | b :: rest =>
    match prev.apply_event with
    | none => none
    | some votes =>
      let b2 := b.adjust_votes votes
      match walkAdjust b2 rest with
      | none => none
      | some out => some (b2 :: out)

/-- `Chain::swap_blocks`: exchange two positions, update the index, then
recompute every block from the smaller position onward.  (The Rust function
also returns the last index reaching consensus during the walk; both call
sites discard it, so it is omitted.) -/
def Chain.swap_blocks (c : Chain) (i j : Nat) : Option Chain :=
  match c.blocks.get? i, c.blocks.get? j with
  | some bi, some bj =>
    let idx2 := idxInsert bj.get_id i (idxInsert bi.get_id j c.index)
    let swapped := (c.blocks.set i bj).set j bi
    let startBl : Nat × List Block :=
      if Nat.min i j = 0 then
        (1, match swapped with
            | [] => []
            | b :: rest => b.adjust_votes [] :: rest)
      else (Nat.min i j, swapped)
    match startBl.2.get? (startBl.1 - 1) with
    | none => none
    | some prev =>
      match walkAdjust prev (startBl.2.drop startBl.1) with
      | none => none
      | some out => some ⟨startBl.2.take startBl.1 ++ out, idx2⟩
  | _, _ => none

/-- The frontier: position right after the last valid block (0 if none). -/
def Chain.frontierIdx (c : Chain) : Nat :=
  match c.last_valid with
  | some i => i + 1
  | none => 0

/-- Common tail of `Chain::add_vote`: move the block at `index` to the
frontier, add the vote there, and report whether it now has consensus. -/
def Chain.settleVote (c : Chain) (index : Nat) (voter : Name) : Option (Chain × Bool) :=
  let s := c.frontierIdx
  match c.swap_blocks index s with
  | none => none
  | some c2 =>
    match c2.blocks.get? s with
    | none => none
    | some b =>
      let b2 := b.add_vote voter
      some (⟨c2.blocks.set s b2, c2.index⟩, b2.has_consensus)

/-- The block freshly synthesized by `Chain::add_vote` for an unknown id:
genesis on an empty chain, otherwise derived from the tail. -/
def synthBlock (c : Chain) (e : NetworkEvent) : Option Block :=
  match c.blocks.getLast? with
  | none => some (Block.genesis e)
  | some tail => tail.from_event e

/-- `Chain::add_vote`. -/
def Chain.add_vote (c : Chain) (id : BlockId) (voter : Name) : Option (Chain × Bool) :=
  match idxGet c.index id with
  | some index =>
    match c.blocks.get? index with
    | none => none
    | some b =>
      if b.has_consensus then
        some (⟨c.blocks.set index (b.add_vote voter), c.index⟩, false)
      else
        c.settleVote index voter
  | none =>
    match synthBlock c id.event with
    | none => none
    | some nb =>
      let c1 := c.append nb
      c1.settleVote (c1.blocks.length - 1) voter

/-- `Chain::add_node`. -/
def Chain.add_node (c : Chain) (node : Name) : Option (Chain × Option BlockId) :=
  let bid : BlockId := ⟨.nodeGained node⟩
  match idxGet c.index bid with
  | some _ => some (c, none)
  | none =>
    match c.blocks.getLast? with
    | none => some (c.append (Block.genesis (.nodeGained node)), some bid)
    | some tail =>
      match tail.from_event (.nodeGained node) with
      | none => none
      | some nb => some (c.append nb, some bid)

/-- `Chain::remove_node`. -/
def Chain.remove_node (c : Chain) (node : Name) : Option (Chain × Option BlockId) :=
  let bid : BlockId := ⟨.nodeLost node⟩
  match idxGet c.index bid with
  | some _ => some (c, none)
  | none =>
    match c.blocks.getLast? with
    | none => some (c, none)
    | some tail =>
      match tail.from_event (.nodeLost node) with
      | none => none
      | some nb => some (c.append nb, some bid)

/-- `RoutingTable` (src/routing_table.rs). -/
structure RoutingTable where
  ourPfx : Pfx
  chains : List (Pfx × Chain)
deriving DecidableEq, Repr

/-- `BTreeMap::get` on the chain map. -/
def lookupChain (l : List (Pfx × Chain)) (k : Pfx) : Option Chain :=
  match l with
  | [] => none
  | p :: r => if p.1 = k then some p.2 else lookupChain r k

/-- In-place update of an existing chain (`BTreeMap::get_mut` then write). -/
def updChain (k : Pfx) (c : Chain) : List (Pfx × Chain) → List (Pfx × Chain)
  | [] => []
  | p :: r => if p.1 = k then (k, c) :: r else p :: updChain k c r

/-- `RoutingTable::get_section`: the held prefix matching the name. -/
def RoutingTable.get_section (rt : RoutingTable) (name : Name) : Option Pfx :=
  (rt.chains.map (fun p => p.1)).find? (fun p => p.matches name)

/-- The voter loop of `RoutingTable::add_votes` with the running `result`
accumulator; `result = result || chain.add_vote(..)` short-circuits, so once
`result` is true no further `add_vote` runs. -/
def addVotesAux (id : BlockId) : RoutingTable → Bool → List Name → Option (RoutingTable × Bool)
  | rt, res, [] => some (rt, res)
  | rt, res, v :: vs =>
    match rt.get_section v with
    | none => addVotesAux id rt res vs
    | some p =>
      if res then addVotesAux id rt res vs
      else
        match lookupChain rt.chains p with
        | none => addVotesAux id rt res vs
        | some ch =>
          match ch.add_vote id v with
          | none => none
          | some chr =>
            addVotesAux id { rt with chains := updChain p chr.1 rt.chains } chr.2 vs

/-- `RoutingTable::add_votes`. -/
def RoutingTable.add_votes (rt : RoutingTable) (id : BlockId) (voters : List Name) :
    Option (RoutingTable × Bool) :=
  addVotesAux id rt false voters

/-! ### Invariants -/

/-- Block `b` may directly follow block `a`: `a`'s event applies successfully
and `b`'s member keys are exactly the keys it produces. -/
def linkedB (a b : Block) : Bool :=
  match a.apply_event with
  | none => false
  | some m => decide (keysMp b.members = keysMp m)

/-- Every block's member keys equal the key set produced by its
predecessor's event. -/
def linkedList : List Block → Bool
  | [] => true
  | [_] => true
  | a :: b :: r => linkedB a b && linkedList (b :: r)

/-- The structural chain invariant: for every position `i > 0`,
`blocks[i].members.keys() = apply_event(blocks[i-1]).keys()`. -/
def chainInv (c : Chain) : Prop := linkedList c.blocks = true

/-- Member keys and invalid votes of a block are disjoint. -/
def BlockDisjoint (b : Block) : Prop :=
  ∀ n ∈ b.invalid_votes, containsKey b.members n = false

/-- Precondition for `Chain::append` preserving the structural invariant:
the appended block is linked to the current tail (vacuous on an empty
chain). -/
def appendLink (c : Chain) (b : Block) : Prop :=
  (match c.blocks.getLast? with
   | none => true
   | some t => linkedB t b) = true

instance (b : Block) : Decidable (BlockDisjoint b) := by
  unfold BlockDisjoint
  infer_instance

instance (c : Chain) : Decidable (chainInv c) := by
  unfold chainInv
  infer_instance

/-! ### Concrete scenario values -/

/-- Scenario A/B block ids. -/
def idG (n : Name) : BlockId := ⟨.nodeGained n⟩

/-- Scenario A: chain after `add_node 1` on the empty chain. -/
def scenAc1 : Chain :=
  ⟨[⟨.nodeGained 1, [], []⟩], [(idG 1, 0)]⟩

/-- Scenario A: chain after the vote from node 1. -/
def scenAc2 : Chain :=
  ⟨[⟨.nodeGained 1, [], [1]⟩], [(idG 1, 0)]⟩

/-- Scenario B: a chain whose single block is confirmed with members
{1, 2, 3} (nodes 1 and 2 voted). -/
def scenB0 : Chain :=
  ⟨[⟨.nodeGained 3, [(1, true), (2, true), (3, false)], []⟩], [(idG 3, 0)]⟩

/-- Scenario B: after `add_node 4`. -/
def scenBc1 : Chain :=
  ⟨[⟨.nodeGained 3, [(1, true), (2, true), (3, false)], []⟩,
    ⟨.nodeGained 4, [(1, false), (2, false), (3, false)], []⟩],
   [(idG 3, 0), (idG 4, 1)]⟩

/-- Scenario B: after the vote from node 1. -/
def scenBc2 : Chain :=
  ⟨[⟨.nodeGained 3, [(1, true), (2, true), (3, false)], []⟩,
    ⟨.nodeGained 4, [(1, true), (2, false), (3, false)], []⟩],
   [(idG 3, 0), (idG 4, 1)]⟩

/-- Scenario B: after the vote from node 2. -/
def scenBc3 : Chain :=
  ⟨[⟨.nodeGained 3, [(1, true), (2, true), (3, false)], []⟩,
    ⟨.nodeGained 4, [(1, true), (2, true), (3, false)], []⟩],
   [(idG 3, 0), (idG 4, 1)]⟩

/-- Scenario C: a chain with a single unconfirmed block. -/
def scenC0 : Chain :=
  ⟨[⟨.nodeGained 1, [], []⟩], [(⟨.nodeGained 1⟩, 0)]⟩

/-- Scenario C: the block `add_vote` synthesizes for the unknown
`NodeLost(5)` id on `scenC0`. -/
def scenCnb : Block := ⟨.nodeLost 5, [(1, false)], []⟩

/-- Short-circuit scenario: chain whose pending block needs one more vote. -/
def scenD0 : Chain :=
  ⟨[⟨.nodeGained 3, [(1, true), (2, true), (3, false)], []⟩,
    ⟨.nodeGained 4, [(1, true), (2, false), (3, false)], []⟩],
   [(idG 3, 0), (idG 4, 1)]⟩

/-- Short-circuit scenario: a routing table tracking the whole address
space with chain `scenD0`. -/
def rtD : RoutingTable := ⟨⟨0, 0⟩, [(⟨0, 0⟩, scenD0)]⟩

/-- Short-circuit scenario: table after `add_votes` from voters 2 and 3. -/
def rtD1 : RoutingTable := ⟨⟨0, 0⟩, [(⟨0, 0⟩, scenBc3)]⟩

/-! ### Basic lemmas on the map/set primitives -/

theorem mem_insertSet {k n : Name} : ∀ {s : List Name},
    n ∈ insertSet k s ↔ n = k ∨ n ∈ s := by
  intro s
  induction s with
  | nil => simp [insertSet]
  | cons x r ih =>
    simp only [insertSet]
    by_cases h1 : k < x
    · rw [if_pos h1]
      simp [List.mem_cons, or_assoc]
    · rw [if_neg h1]
      by_cases h2 : k = x
      · rw [if_pos h2]
        subst h2
        simp only [List.mem_cons]
        tauto
      · rw [if_neg h2]
        simp only [List.mem_cons, ih]
        tauto

theorem mem_foldl_insertSet {n : Name} : ∀ (l : List Name) (s : List Name),
    n ∈ l.foldl (fun acc m => insertSet m acc) s ↔ n ∈ s ∨ n ∈ l := by
  intro l
  induction l with
  | nil => simp
  | cons x r ih =>
    intro s
    simp only [List.foldl_cons, ih, mem_insertSet, List.mem_cons]
    tauto

theorem mem_collectSet {n : Name} {l : List Name} :
    n ∈ collectSet l ↔ n ∈ l := by
  simp [collectSet, mem_foldl_insertSet]

theorem setMem_iff {s : List Name} {k : Name} : setMem s k = true ↔ k ∈ s := by
  induction s with
  | nil => simp [setMem]
  | cons x r ih =>
    simp only [setMem, List.mem_cons]
    by_cases h : x = k
    · simp [h]
    · rw [if_neg h, ih]
      constructor
      · exact Or.inr
      · rintro (h2 | h2)
        · exact absurd h2.symm h
        · exact h2

theorem getMp_some_mem {m : Mp} {k : Name} {v : Bool} (h : getMp m k = some v) :
    (k, v) ∈ m := by
  induction m with
  | nil => simp [getMp] at h
  | cons p r ih =>
    simp only [getMp] at h
    by_cases hk : p.1 = k
    · rw [if_pos hk] at h
      injection h with h
      have hp : p = (k, v) := by
        cases p
        simp_all
      rw [hp]
      exact List.mem_cons_self _ _
    · rw [if_neg hk] at h
      exact List.mem_cons_of_mem p (ih h)

theorem containsKey_map {f : Name × Bool → Name × Bool} (hf : ∀ p, (f p).1 = p.1) :
    ∀ (m : Mp) (n : Name), containsKey (m.map f) n = containsKey m n := by
  intro m n
  induction m with
  | nil => rfl
  | cons p r ih =>
    simp only [List.map_cons, containsKey, hf p, ih]

theorem getMp_map_keyg {g : Name → Bool} :
    ∀ (m : Mp) (n : Name), containsKey m n = true →
      getMp (m.map (fun p => (p.1, g p.1))) n = some (g n) := by
  intro m n
  induction m with
  | nil => intro h; simp [containsKey] at h
  | cons p r ih =>
    intro h
    simp only [containsKey] at h
    simp only [List.map_cons, getMp]
    by_cases hk : p.1 = n
    · rw [if_pos hk, hk]
    · rw [if_neg hk]
      rw [if_neg hk] at h
      exact ih h

theorem containsKey_insMpSorted (k : Name) (v : Bool) :
    ∀ (m : Mp) (n : Name),
      containsKey (insMpSorted k v m) n = true ↔ n = k ∨ containsKey m n = true := by
  intro m n
  induction m with
  | nil =>
    simp only [insMpSorted, containsKey]
    constructor
    · intro h
      left
      by_contra hn
      rw [if_neg (fun hk => hn hk.symm)] at h
      exact Bool.false_ne_true h
    · rintro (h | h)
      · rw [if_pos h.symm]
      · exact absurd h Bool.false_ne_true
  | cons p r ih =>
    simp only [insMpSorted]
    by_cases h1 : k < p.1
    · rw [if_pos h1]
      simp only [containsKey]
      by_cases hk : k = n
      · rw [if_pos hk]
        simp [hk]
      · rw [if_neg hk]
        by_cases hp : p.1 = n
        · simp [hp]
        · simp only [if_neg hp]
          constructor
          · intro h; exact Or.inr h
          · rintro (h | h)
            · exact absurd h.symm hk
            · exact h
    · rw [if_neg h1]
      by_cases h2 : k = p.1
      · rw [if_pos h2]
        simp only [containsKey]
        by_cases hk : k = n
        · rw [if_pos hk]
          simp [hk]
        · rw [if_neg hk]
          subst h2
          simp only [if_neg hk]
          constructor
          · intro h; exact Or.inr h
          · rintro (h | h)
            · exact absurd h.symm hk
            · exact h
      · rw [if_neg h2]
        simp only [containsKey]
        by_cases hp : p.1 = n
        · simp [hp]
        · simp only [if_neg hp, ih]

theorem containsKey_insertMp (k : Name) (v : Bool) (m : Mp) (n : Name) :
    containsKey (insertMp k v m) n = true ↔ n = k ∨ containsKey m n = true := by
  unfold insertMp
  by_cases hc : containsKey m k
  · rw [if_pos hc]
    rw [containsKey_map (by intro p; by_cases h : p.1 = k <;> simp [h])]
    constructor
    · intro h; exact Or.inr h
    · rintro (h | h)
      · rw [h]; exact hc
      · exact h
  · rw [if_neg hc]
    exact containsKey_insMpSorted k v m n

theorem adjust_votes_members (b : Block) (other : Mp) :
    (b.adjust_votes other).members =
      other.map (fun p =>
        (p.1, ((getMp b.members p.1).getD false || setMem b.invalid_votes p.1))) := rfl

theorem adjust_votes_invalid (b : Block) (other : Mp) :
    (b.adjust_votes other).invalid_votes =
      collectSet
        (((b.members.filter
            (fun q => q.2 && !(containsKey (b.adjust_votes other).members q.1))).map
              (fun q => q.1)) ++
          b.invalid_votes.filter
            (fun n => !(containsKey (b.adjust_votes other).members n))) := rfl

theorem adjust_votes_event (b : Block) (other : Mp) :
    (b.adjust_votes other).event = b.event := rfl

/-! ### Claim theorems: scenarios A and B, routing-table vote dispatch -/

/-- C2: the claim as stated is false — on an empty chain `add_node 1` does
return an id, but `add_vote(id1, 1)` returns `false`, not `true`: the
genesis-path block has an empty member map, so the vote cannot count. -/
theorem scenarioA_vote_returns_false :
    Chain.new.add_node 1 = some (scenAc1, some (idG 1)) ∧
    ¬ ((scenAc1.add_vote (idG 1) 1).map (fun r => r.2) = some true) := by
  decide

/-- C2 (amended): on an empty chain `add_node 1` returns id1 and appends a
genesis block with empty members; `add_vote(id1, 1)` then returns `false`
and records the vote in `invalid_votes` (0 members, 0 countable votes,
`0*2 > 0` fails). -/
theorem scenarioA_amended :
    Chain.new.add_node 1 = some (scenAc1, some (idG 1)) ∧
    scenAc1.blocks = [⟨.nodeGained 1, [], []⟩] ∧
    scenAc1.add_vote (idG 1) 1 = some (scenAc2, false) ∧
    scenAc2.blocks = [⟨.nodeGained 1, [], [1]⟩] := by
  decide

/-- C1: the claim as stated is false — after `add_node 4` on a chain whose
confirmed tail has members {1,2,3}, the pending block has 3 members (not 4:
the block's own event is not applied to its member map), and consensus is
achieved on the second vote (2*2 = 4 > 3), not the third. -/
theorem scenarioB_claim_false :
    scenB0.add_node 4 = some (scenBc1, some (idG 4)) ∧
    ¬ ((scenBc1.blocks.get? 1).map (fun b => (keysMp b.members).length) = some 4) ∧
    scenBc1.add_vote (idG 4) 1 = some (scenBc2, false) ∧
    ¬ ((scenBc2.add_vote (idG 4) 2).map (fun r => r.2) = some false) := by
  decide

/-- C1 (amended): from a chain whose last confirmed block has members
{1,2,3}, `add_node 4` creates a pending block whose vote tally is over the
3 members {1,2,3} produced by the predecessor's event (node 4 itself is not
a member); the vote from 1 gives no consensus (1*2 = 2, not > 3) and the
vote from 2 achieves consensus on exactly the second vote (2*2 = 4 > 3). -/
theorem scenarioB_amended :
    scenB0.add_node 4 = some (scenBc1, some (idG 4)) ∧
    (scenBc1.blocks.get? 1).map (fun b => b.members) =
      some [(1, false), (2, false), (3, false)] ∧
    scenBc1.add_vote (idG 4) 1 = some (scenBc2, false) ∧
    scenBc2.add_vote (idG 4) 2 = some (scenBc3, true) := by
  decide

/-- C10: `Block::genesis` has empty members and invalid votes; a block with
an empty member map never has consensus, and `add_vote` on it records the
voter in `invalid_votes` while the member map stays empty — so a
genesis-path block can never become valid through voting alone. -/
theorem genesis_blocks_cannot_reach_consensus :
    (∀ e, (Block.genesis e).members = [] ∧ (Block.genesis e).invalid_votes = []) ∧
    (∀ (b : Block) (v : Name), b.members = [] →
      b.has_consensus = false ∧
      (b.add_vote v).members = [] ∧
      v ∈ (b.add_vote v).invalid_votes) := by
  constructor
  · intro e
    exact ⟨rfl, rfl⟩
  · intro b v h
    refine ⟨?_, ?_, ?_⟩
    · simp [Block.has_consensus, h]
    · simp [Block.add_vote, h, containsKey]
    · simp [Block.add_vote, h, containsKey, mem_insertSet]

/-- C10 witness: the consequences at a concrete empty-membered block. -/
theorem genesis_blocks_cannot_reach_consensus_witness :
    (⟨.split ⟨1, 0⟩, [], [7]⟩ : Block).has_consensus = false ∧
    ((⟨.split ⟨1, 0⟩, [], [7]⟩ : Block).add_vote 9).members = [] ∧
    9 ∈ ((⟨.split ⟨1, 0⟩, [], [7]⟩ : Block).add_vote 9).invalid_votes :=
  genesis_blocks_cannot_reach_consensus.2 ⟨.split ⟨1, 0⟩, [], [7]⟩ 9 rfl

/-- The voter loop of `add_votes` skips every voter in an untracked shard. -/
theorem addVotesAux_all_untracked (id : BlockId) :
    ∀ (voters : List Name) (rt : RoutingTable) (res : Bool),
      (∀ v ∈ voters, rt.get_section v = none) →
      addVotesAux id rt res voters = some (rt, res) := by
  intro voters
  induction voters with
  | nil => intro rt res _; rfl
  | cons v vs ih =>
    intro rt res h
    have hv : rt.get_section v = none := h v (List.mem_cons_self v vs)
    simp only [addVotesAux, hv]
    exact ih rt res (fun w hw => h w (List.mem_cons_of_mem v hw))

/-- C9: when every supplied voter matches none of the tracked prefixes,
`add_votes` returns `false` and leaves the whole table (so every chain)
unchanged. -/
theorem add_votes_untracked_returns_false (rt : RoutingTable) (id : BlockId)
    (voters : List Name) (h : ∀ v ∈ voters, rt.get_section v = none) :
    rt.add_votes id voters = some (rt, false) :=
  addVotesAux_all_untracked id voters rt false h

/-- C9 witness: one voter, whose name 7 is outside the single tracked
length-64 prefix. -/
theorem add_votes_untracked_returns_false_witness :
    RoutingTable.add_votes ⟨⟨64, 5⟩, [(⟨64, 5⟩, Chain.new)]⟩ ⟨.nodeGained 1⟩ [7] =
      some (⟨⟨64, 5⟩, [(⟨64, 5⟩, Chain.new)]⟩, false) :=
  add_votes_untracked_returns_false ⟨⟨64, 5⟩, [(⟨64, 5⟩, Chain.new)]⟩ ⟨.nodeGained 1⟩ [7]
    (by decide)

/-- Once the running result is `true`, the voter loop of `add_votes` makes
no further `Chain.add_vote` call: the table passes through unchanged. -/
theorem addVotesAux_true_noop (id : BlockId) :
    ∀ (voters : List Name) (rt : RoutingTable),
      addVotesAux id rt true voters = some (rt, true) := by
  intro voters
  induction voters with
  | nil => intro rt; rfl
  | cons v vs ih =>
    intro rt
    simp only [addVotesAux]
    cases h : rt.get_section v with
    | none => exact ih rt
    | some p => simp only [if_pos rfl]; exact ih rt

/-- C3: the claim as stated is false — with table `rtD` tracking both
voters 2 and 3, `add_votes(id, [2, 3])` forwards 2's vote (which newly
achieves consensus) but drops 3's: node 3 stays unvoted in the final chain,
while directly forwarding 3's vote would have recorded it. -/
theorem add_votes_drops_later_voters :
    rtD.add_votes (idG 4) [2, 3] = some (rtD1, true) ∧
    (lookupChain rtD1.chains ⟨0, 0⟩).map
        (fun ch => (ch.blocks.get? 1).map (fun b => getMp b.members 3)) =
      some (some (some false)) ∧
    (scenBc3.add_vote (idG 4) 3).map
        (fun r => (r.1.blocks.get? 1).map (fun b => getMp b.members 3)) =
      some (some (some true)) := by
  decide

/-- C3 (amended): voters are processed in order and forwarded to their
shard's chain only while no forward has yet returned `true`; as soon as one
forward newly achieves consensus, all remaining voters are skipped (their
votes are dropped) and the call returns `true`. -/
theorem add_votes_short_circuits (rt : RoutingTable) (id : BlockId) (v : Name)
    (vs : List Name) (p : Pfx) (ch ch2 : Chain)
    (h1 : rt.get_section v = some p)
    (h2 : lookupChain rt.chains p = some ch)
    (h3 : ch.add_vote id v = some (ch2, true)) :
    rt.add_votes id (v :: vs) =
      some ({ rt with chains := updChain p ch2 rt.chains }, true) := by
  simp only [RoutingTable.add_votes, addVotesAux, h1, h2, h3, if_neg (Bool.false_ne_true)]
  exact addVotesAux_true_noop id vs _

/-- C3 witness: with table `rtD`, voter 2's forward achieves consensus and
an arbitrary trailing voter list is skipped wholesale. -/
theorem add_votes_short_circuits_witness :
    rtD.add_votes (idG 4) [2, 9] = some (rtD1, true) := by
  have h := add_votes_short_circuits rtD (idG 4) 2 [9] ⟨0, 0⟩ scenD0 scenBc3
    (by decide) rfl (by decide)
  exact h

/-- C8: a name marked voted in a block's members survives an `adjust_votes`
pass that drops it (it moves into `invalid_votes`) followed by an
`adjust_votes` pass that reinstates it: it ends up marked voted again. -/
theorem vote_survives_remove_and_reinstate (b : Block) (n : Name) (m1 m2 : Mp)
    (hvoted : getMp b.members n = some true)
    (h1 : containsKey m1 n = false)
    (h2 : containsKey m2 n = true) :
    getMp ((b.adjust_votes m1).adjust_votes m2).members n = some true := by
  have hnew1 : containsKey (b.adjust_votes m1).members n = false := by
    rw [adjust_votes_members, containsKey_map (by intro p; rfl)]
    exact h1
  have hinv : n ∈ (b.adjust_votes m1).invalid_votes := by
    rw [adjust_votes_invalid, mem_collectSet, List.mem_append]
    left
    apply List.mem_map.mpr
    refine ⟨(n, true), ?_, rfl⟩
    apply List.mem_filter.mpr
    refine ⟨getMp_some_mem hvoted, ?_⟩
    simp [hnew1]
  rw [adjust_votes_members]
  rw [getMp_map_keyg
    (g := fun x =>
      ((getMp (b.adjust_votes m1).members x).getD false ||
        setMem (b.adjust_votes m1).invalid_votes x)) m2 n h2]
  rw [setMem_iff.mpr hinv]
  simp

/-- C8 witness: a concrete vote removed by adjusting against an empty map
and reinstated by a second adjustment. -/
theorem vote_survives_remove_and_reinstate_witness :
    getMp (((⟨.merge ⟨0, 0⟩, [(5, true)], []⟩ : Block).adjust_votes []).adjust_votes
        [(5, false)]).members 5 = some true :=
  vote_survives_remove_and_reinstate ⟨.merge ⟨0, 0⟩, [(5, true)], []⟩ 5 [] [(5, false)]
    rfl rfl (by decide)

/-- C6: every Block operation sends a block with disjoint member keys and
invalid votes to a block with disjoint member keys and invalid votes
(`genesis` and the `from_event` family unconditionally, `adjust_votes` and
`add_vote` preserving the property). -/
theorem block_ops_preserve_disjoint :
    (∀ e, BlockDisjoint (Block.genesis e)) ∧
    (∀ b : Block, BlockDisjoint b →
      (∀ e b2, b.from_event e = some b2 → BlockDisjoint b2) ∧
      (∀ x b2, b.node_added x = some b2 → BlockDisjoint b2) ∧
      (∀ x b2, b.node_removed x = some b2 → BlockDisjoint b2) ∧
      (∀ p b2, b.section_split p = some b2 → BlockDisjoint b2) ∧
      (∀ p b2, b.section_merge p = some b2 → BlockDisjoint b2) ∧
      (∀ m, BlockDisjoint (b.adjust_votes m)) ∧
      (∀ v, BlockDisjoint (b.add_vote v))) := by
  constructor
  · intro e n hn
    simp [Block.genesis] at hn
  · intro b hb
    have hfe : ∀ e b2, b.from_event e = some b2 → BlockDisjoint b2 := by
      intro e b2 h
      cases happ : b.apply_event with
      | none => rw [Block.from_event, happ] at h; exact absurd h (by simp)
      | some mm =>
        rw [Block.from_event, happ, Option.map_some'] at h
        injection h with h
        intro n hn
        rw [← h] at hn
        simp at hn
    refine ⟨hfe, fun x => hfe _, fun x => hfe _, fun p => hfe _, fun p => hfe _, ?_, ?_⟩
    · intro m n hn
      rw [adjust_votes_invalid, mem_collectSet, List.mem_append] at hn
      cases hn with
      | inl hn =>
        obtain ⟨q, hq, hqn⟩ := List.mem_map.mp hn
        have hpred := (List.mem_filter.mp hq).2
        rw [Bool.and_eq_true] at hpred
        have := hpred.2
        rw [Bool.not_eq_true', hqn] at this
        exact this
      | inr hn =>
        have hpred := (List.mem_filter.mp hn).2
        rw [Bool.not_eq_true'] at hpred
        exact hpred
    · intro v n hn
      cases hc : containsKey b.members v with
      | true =>
        simp only [Block.add_vote, hc, if_pos] at hn ⊢
        have hdis := hb n hn
        cases hck : containsKey (insertMp v true b.members) n with
        | false => rfl
        | true =>
          exfalso
          rcases (containsKey_insertMp v true b.members n).mp hck with h | h
          · rw [h] at hdis
            rw [hdis] at hc
            exact Bool.false_ne_true hc
          · rw [h] at hdis
            simp at hdis
      | false =>
        simp only [Block.add_vote, hc] at hn ⊢
        rcases mem_insertSet.mp hn with h | h
        · rw [h]
          exact hc
        · exact hb n h

/-- C6 witness: `add_vote` of a non-member on a concrete disjoint block. -/
theorem block_ops_preserve_disjoint_witness :
    BlockDisjoint (Block.add_vote ⟨.merge ⟨0, 0⟩, [(1, false)], [2]⟩ 5) :=
  ((block_ops_preserve_disjoint.2 ⟨.merge ⟨0, 0⟩, [(1, false)], [2]⟩
    (by decide)).2.2.2.2.2.2) 5

theorem idxGet_idxInsert_self (k : BlockId) (v : Nat) :
    ∀ i : Idx, idxGet (idxInsert k v i) k = some v := by
  intro i
  induction i with
  | nil => simp [idxInsert, idxGet]
  | cons p r ih =>
    simp only [idxInsert]
    by_cases h : p.1 = k
    · rw [if_pos h]
      simp [idxGet]
    · rw [if_neg h]
      simp only [idxGet, if_neg h]
      exact ih

/-- C7: the claim quantified over every chain is false — on a chain whose
tail block's event is `NodeLost(5)` with node 5 absent from its members (and
with no `NodeGained(7)` block anywhere), the first `add_node(7)` call hits
the broken-invariant abort: it appends nothing and returns no id. -/
theorem add_node_can_abort :
    Chain.add_node ⟨[⟨.nodeLost 5, [], []⟩], [(⟨.nodeLost 5⟩, 0)]⟩ 7 = none := by
  decide

/-- C7 (amended): if no block for `NodeGained(name)` is registered in the
chain's index and the first `add_node(name)` call returns normally, it
appends exactly one block — derived from the tail when the chain is
nonempty, a genesis block otherwise — and returns its id; the second call
then returns no id and leaves the chain completely unchanged. -/
theorem add_node_idempotent (c : Chain) (nm : Name) (c1 : Chain) (r : Option BlockId)
    (hnone : idxGet c.index ⟨.nodeGained nm⟩ = none)
    (h : c.add_node nm = some (c1, r)) :
    r = some ⟨.nodeGained nm⟩ ∧
    c1.blocks.length = c.blocks.length + 1 ∧
    (c.blocks = [] → c1.blocks = [Block.genesis (.nodeGained nm)]) ∧
    (∀ tail, c.blocks.getLast? = some tail →
      ∃ nb, tail.from_event (.nodeGained nm) = some nb ∧ c1.blocks = c.blocks ++ [nb]) ∧
    c1.add_node nm = some (c1, none) := by
  cases hlast : c.blocks.getLast? with
  | none =>
    have hcb : c.blocks = [] := by
      cases hb : c.blocks with
      | nil => rfl
      | cons x xs =>
        rw [hb] at hlast
        simp [List.getLast?] at hlast
    simp only [Chain.add_node, hnone, hlast] at h
    injection h with h
    injection h with hc1 hr
    subst hc1
    refine ⟨hr.symm, by simp [Chain.append, hcb], by intro _; simp [Chain.append, hcb], ?_, ?_⟩
    · intro tail htail
      simp [hlast, hcb] at htail
    · simp only [Chain.add_node, Chain.append, Block.get_id, Block.genesis,
        idxGet_idxInsert_self]
  | some tail =>
    cases hfe : tail.from_event (.nodeGained nm) with
    | none =>
      simp only [Chain.add_node, hnone, hlast, hfe] at h
      exact absurd h (by simp)
    | some nb =>
      have hnbev : nb.get_id = (⟨.nodeGained nm⟩ : BlockId) := by
        cases happ : tail.apply_event with
        | none => rw [Block.from_event, happ] at hfe; simp at hfe
        | some mm =>
          rw [Block.from_event, happ, Option.map_some'] at hfe
          injection hfe with hfe
          rw [← hfe]
          rfl
      simp only [Chain.add_node, hnone, hlast, hfe] at h
      injection h with h
      injection h with hc1 hr
      subst hc1
      refine ⟨hr.symm, by simp [Chain.append], ?_, ?_, ?_⟩
      · intro hcb
        rw [hcb] at hlast
        exact absurd hlast (by simp)
      · intro tail2 htail2
        injection htail2 with htail2
        subst htail2
        exact ⟨nb, hfe, rfl⟩
      · simp only [Chain.add_node, Chain.append, hnbev, idxGet_idxInsert_self]

/-- C7 witness: `add_node 1` on the empty chain followed by a second call. -/
theorem add_node_idempotent_witness :
    scenAc1.add_node 1 = some (scenAc1, none) ∧ scenAc1.blocks.length = 0 + 1 := by
  have h := add_node_idempotent Chain.new 1 scenAc1 (some (idG 1)) rfl (by decide)
  exact ⟨h.2.2.2.2, h.2.1⟩

/-! ### Claim C4: unknown NodeLost votes -/

theorem containsKey_clone (b : Block) (n : Name) :
    containsKey b.clone_members n = containsKey b.members n := by
  rw [Block.clone_members, containsKey_map (by intro p; rfl)]

theorem apply_event_none_of (b : Block) (X : Name) (hev : b.event = .nodeLost X)
    (h : containsKey b.members X = false) : b.apply_event = none := by
  have hc : containsKey b.clone_members X = false := by
    rw [containsKey_clone]
    exact h
  simp only [Block.apply_event, hev, hc]
  simp

theorem adjust_votes_members_nil (b : Block) : (b.adjust_votes []).members = [] := rfl

theorem containsKey_adjust (b : Block) (other : Mp) (n : Name) :
    containsKey (b.adjust_votes other).members n = containsKey other n := by
  rw [adjust_votes_members, containsKey_map (by intro p; rfl)]

/-- If the head of the walk is a `NodeLost(X)` block and `X` is not among
the keys the predecessor produces, the walk aborts as soon as the head's
own event is applied for the next block. -/
theorem walkAdjust_nodeLost_aborts (prev nb u : Block) (rest : List Block) (X : Name)
    (hev : nb.event = .nodeLost X)
    (habs : ∀ votes, prev.apply_event = some votes → containsKey votes X = false) :
    walkAdjust prev (nb :: u :: rest) = none := by
  cases happ : prev.apply_event with
  | none => simp [walkAdjust, happ]
  | some votes =>
    have h2 : (nb.adjust_votes votes).apply_event = none := by
      apply apply_event_none_of _ X
      · rw [adjust_votes_event, hev]
      · rw [containsKey_adjust]
        exact habs votes happ
    simp [walkAdjust, happ, h2]

theorem synthBlock_event (c : Chain) (e : NetworkEvent) (nb : Block)
    (h : synthBlock c e = some nb) : nb.event = e := by
  unfold synthBlock at h
  cases hlast : c.blocks.getLast? with
  | none =>
    rw [hlast] at h
    injection h with h
    rw [← h]
    rfl
  | some tail =>
    rw [hlast] at h
    simp only [Block.from_event] at h
    cases happ : tail.apply_event with
    | none => rw [happ] at h; simp at h
    | some mm =>
      rw [happ, Option.map_some'] at h
      injection h with h
      rw [← h]

theorem take_set_of_le {α : Type} (l : List α) (a : α) {m k : Nat} (h : m ≤ k) :
    (l.set k a).take m = l.take m := by
  ext i x
  simp only [List.getElem?_take]
  split
  · rw [List.getElem?_set_ne (by omega)]
  · rfl

/-- `Chain::swap_blocks` aborts when the last block is a `NodeLost(X)`
block moved to position `s`, another block follows it, and `X` is not among
the keys produced by the block before position `s`. -/
theorem swap_blocks_nodeLost_none (c1 : Chain) (nb : Block) (X : Name) (s : Nat)
    (hevnb : nb.event = .nodeLost X)
    (hsn : s + 1 < c1.blocks.length)
    (hnb : c1.blocks.get? (c1.blocks.length - 1) = some nb)
    (habs : ∀ b votes, 1 ≤ s → c1.blocks.get? (s - 1) = some b →
      b.apply_event = some votes → containsKey votes X = false) :
    c1.swap_blocks (c1.blocks.length - 1) s = none := by
  obtain ⟨bs, hbs⟩ : ∃ bs, c1.blocks.get? s = some bs := by
    rw [List.get?_eq_getElem?]
    exact ⟨_, List.getElem?_eq_getElem (by omega)⟩
  simp only [Chain.swap_blocks, hnb, hbs]
  have hmin : Nat.min (c1.blocks.length - 1) s = s := Nat.min_eq_right (by omega)
  rw [hmin]
  have hswlen :
      ((c1.blocks.set (c1.blocks.length - 1) bs).set s nb).length = c1.blocks.length := by
    simp
  by_cases hs0 : s = 0
  · subst hs0
    simp only [if_pos rfl]
    obtain ⟨h0, t0, hsw⟩ :=
      List.exists_cons_of_ne_nil
        (show (c1.blocks.set (c1.blocks.length - 1) bs).set 0 nb ≠ [] from by
          intro hnil
          rw [hnil] at hswlen
          simp at hswlen
          omega)
    have hh0 : h0 = nb := by
      have h1 : ((c1.blocks.set (c1.blocks.length - 1) bs).set 0 nb)[0]? = some nb :=
        List.getElem?_set_eq_of_lt nb (by rw [List.length_set]; omega)
      rw [hsw] at h1
      simp at h1
      exact h1
    rw [hsw]
    simp only [List.get?_eq_getElem?, List.getElem?_cons_zero, List.drop_succ_cons,
      List.drop_zero]
    have hpa : (h0.adjust_votes []).apply_event = none := by
      apply apply_event_none_of _ X
      · rw [adjust_votes_event, hh0, hevnb]
      · rw [adjust_votes_members_nil]
        rfl
    have ht0len : t0.length = c1.blocks.length - 1 := by
      rw [hsw] at hswlen
      simp at hswlen
      omega
    obtain ⟨u, t1, hut⟩ :=
      List.exists_cons_of_ne_nil
        (show t0 ≠ [] from by
          intro hnil
          rw [hnil] at ht0len
          simp at ht0len
          omega)
    rw [hut]
    simp [walkAdjust, hpa]
  · rw [if_neg hs0]
    obtain ⟨bprev, hbprev⟩ : ∃ b, c1.blocks.get? (s - 1) = some b := by
      rw [List.get?_eq_getElem?]
      exact ⟨_, List.getElem?_eq_getElem (by omega)⟩
    have hbprevsw :
        ((c1.blocks.set (c1.blocks.length - 1) bs).set s nb).get? (s - 1) = some bprev := by
      rw [List.get?_eq_getElem?, List.getElem?_set_ne (by omega),
        List.getElem?_set_ne (by omega), ← List.get?_eq_getElem?]
      exact hbprev
    rw [hbprevsw]
    have hsltsw : s < ((c1.blocks.set (c1.blocks.length - 1) bs).set s nb).length := by
      omega
    have hdrop :
        ((c1.blocks.set (c1.blocks.length - 1) bs).set s nb).drop s =
          nb :: ((c1.blocks.set (c1.blocks.length - 1) bs).set s nb).drop (s + 1) := by
      rw [List.drop_eq_getElem_cons hsltsw]
      congr 1
      have h1 : ((c1.blocks.set (c1.blocks.length - 1) bs).set s nb)[s]? = some nb :=
        List.getElem?_set_eq_of_lt nb (by rw [List.length_set]; omega)
      have h2 := List.getElem?_eq_getElem hsltsw
      rw [h1] at h2
      injection h2 with h2
      exact h2.symm
    rw [hdrop]
    obtain ⟨u, t1, hut⟩ :=
      List.exists_cons_of_ne_nil
        (show ((c1.blocks.set (c1.blocks.length - 1) bs).set s nb).drop (s + 1) ≠ [] from by
          intro hnil
          have := congrArg List.length hnil
          rw [List.length_drop] at this
          simp at this
          omega)
    rw [hut]
    have hwk := walkAdjust_nodeLost_aborts bprev nb u t1 X hevnb
      (fun votes hv => habs bprev votes (by omega) hbprev hv)
    simp [hwk]

/-- C4 (amended): `Chain.add_vote` with an unknown `NodeLost(X)` id, where
`X` is absent from the membership the frontier's predecessor produces,
aborts during the call whenever some block follows the frontier position
(the synthesized block does not come to rest as the chain's last block);
the call does not always abort: on an empty chain it returns normally,
recording the vote as invalid in the memberless genesis-path block and
reporting no consensus. -/
theorem add_vote_unknown_nodeLost_aborts :
    (∀ (c : Chain) (X voter : Name) (nb : Block),
      idxGet c.index ⟨.nodeLost X⟩ = none →
      synthBlock c (.nodeLost X) = some nb →
      (c.append nb).frontierIdx + 1 < (c.append nb).blocks.length →
      (∀ b votes, 1 ≤ (c.append nb).frontierIdx →
        (c.append nb).blocks.get? ((c.append nb).frontierIdx - 1) = some b →
        b.apply_event = some votes → containsKey votes X = false) →
      c.add_vote ⟨.nodeLost X⟩ voter = none) ∧
    (∀ X voter : Name,
      Chain.new.add_vote ⟨.nodeLost X⟩ voter =
        some (⟨[⟨.nodeLost X, [], [voter]⟩], [(⟨.nodeLost X⟩, 0)]⟩, false)) := by
  constructor
  · intro c X voter nb hid hsynth hroom habs
    have hevnb : nb.event = .nodeLost X := synthBlock_event c _ nb hsynth
    have hnb? :
        (c.append nb).blocks.get? ((c.append nb).blocks.length - 1) = some nb := by
      show (c.blocks ++ [nb]).get? ((c.blocks ++ [nb]).length - 1) = some nb
      rw [List.length_append]
      simp only [List.length_singleton, Nat.add_sub_cancel]
      rw [List.get?_eq_getElem?]
      exact List.getElem?_concat_length c.blocks nb
    have hswap := swap_blocks_nodeLost_none (c.append nb) nb X
      ((c.append nb).frontierIdx) hevnb hroom hnb? habs
    simp only [Chain.add_vote, hid, hsynth]
    simp only [Chain.settleVote, hswap]
  · intro X voter
    simp [Chain.add_vote, Chain.new, idxGet, synthBlock, Chain.append,
      Chain.settleVote, Chain.frontierIdx, Chain.last_valid, lastValidAux,
      Chain.swap_blocks, idxInsert, walkAdjust, Block.adjust_votes,
      Block.add_vote, Block.has_consensus, Block.apply_event, Block.genesis,
      Block.get_id, containsKey, insertSet, collectSet, Block.clone_members]

/-- C4: the claim as stated is false — on the empty chain, `add_vote` with
an unknown `NodeLost(5)` id (5 is trivially absent from the empty upstream
membership) does not abort: it returns normally with the vote recorded in
`invalid_votes` and no consensus. -/
theorem add_vote_unknown_nodeLost_can_return :
    Chain.new.add_vote ⟨.nodeLost 5⟩ 3 =
      some (⟨[⟨.nodeLost 5, [], [3]⟩], [(⟨.nodeLost 5⟩, 0)]⟩, false) := by
  decide

/-- C4 witness: on a chain with one unconfirmed block, the synthesized
`NodeLost(5)` block is followed by another block after the frontier swap
and the call aborts; on the empty chain the same id and voter return
normally. -/
theorem add_vote_unknown_nodeLost_aborts_witness :
    scenC0.add_vote ⟨.nodeLost 5⟩ 3 = none ∧
    Chain.new.add_vote ⟨.nodeLost 5⟩ 3 =
      some (⟨[⟨.nodeLost 5, [], [3]⟩], [(⟨.nodeLost 5⟩, 0)]⟩, false) :=
  ⟨add_vote_unknown_nodeLost_aborts.1 scenC0 5 3 scenCnb rfl (by decide) (by decide)
    (fun b votes h1 _ _ => absurd h1 (by decide)),
   add_vote_unknown_nodeLost_aborts.2 5 3⟩

/-! ### Claim C5: the structural chain invariant -/

theorem add_vote_event (b : Block) (v : Name) : (b.add_vote v).event = b.event := by
  unfold Block.add_vote
  split <;> rfl

theorem clone_add_vote (b : Block) (v : Name) :
    (b.add_vote v).clone_members = b.clone_members := by
  show (b.add_vote v).members.map _ = b.members.map _
  by_cases hc : containsKey b.members v
  · simp only [Block.add_vote, if_pos hc]
    show (insertMp v true b.members).map _ = _
    unfold insertMp
    rw [if_pos hc, List.map_map]
    apply List.map_congr_left
    intro p _
    by_cases hp : p.1 = v <;> simp [hp]
  · simp only [Block.add_vote, if_neg hc]

theorem apply_event_add_vote (b : Block) (v : Name) :
    (b.add_vote v).apply_event = b.apply_event := by
  simp only [Block.apply_event, clone_add_vote, add_vote_event]

theorem keysMp_add_vote (b : Block) (v : Name) :
    keysMp (b.add_vote v).members = keysMp b.members := by
  by_cases hc : containsKey b.members v
  · simp only [Block.add_vote, if_pos hc]
    show keysMp (insertMp v true b.members) = _
    unfold insertMp
    rw [if_pos hc]
    unfold keysMp
    rw [List.map_map]
    apply List.map_congr_left
    intro p _
    by_cases hp : p.1 = v <;> simp [hp]
  · simp only [Block.add_vote, if_neg hc]

theorem linkedB_add_vote_left (a b : Block) (v : Name) :
    linkedB (a.add_vote v) b = linkedB a b := by
  unfold linkedB
  rw [apply_event_add_vote]

theorem linkedB_add_vote_right (a b : Block) (v : Name) :
    linkedB a (b.add_vote v) = linkedB a b := by
  unfold linkedB
  cases a.apply_event with
  | none => rfl
  | some m => simp [keysMp_add_vote]

theorem keysMp_adjust (b : Block) (other : Mp) :
    keysMp (b.adjust_votes other).members = keysMp other := by
  rw [adjust_votes_members]
  unfold keysMp
  rw [List.map_map]
  rfl

theorem linkedList_set_stable (v : Name) :
    ∀ (l : List Block) (k : Nat) (bk : Block), l.get? k = some bk →
      linkedList (l.set k (bk.add_vote v)) = linkedList l := by
  intro l
  induction l with
  | nil => intro k bk h; simp [List.get?] at h
  | cons x r ih =>
    intro k bk h
    cases k with
    | zero =>
      simp only [List.get?] at h
      injection h with h
      subst h
      cases r with
      | nil => rfl
      | cons z t =>
        show linkedList (x.add_vote v :: z :: t) = linkedList (x :: z :: t)
        simp only [linkedList, linkedB_add_vote_left]
    | succ k =>
      simp only [List.get?] at h
      have hIH := ih k bk h
      cases r with
      | nil => simp [List.get?] at h
      | cons z t =>
        cases k with
        | zero =>
          simp only [List.get?] at h
          injection h with h
          subst h
          show linkedList (x :: z.add_vote v :: t) = linkedList (x :: z :: t)
          have hIH2 : linkedList (z.add_vote v :: t) = linkedList (z :: t) := hIH
          rw [show linkedList (x :: z.add_vote v :: t) =
              (linkedB x (z.add_vote v) && linkedList (z.add_vote v :: t)) from rfl,
            show linkedList (x :: z :: t) =
              (linkedB x z && linkedList (z :: t)) from rfl,
            linkedB_add_vote_right, hIH2]
        | succ k =>
          show linkedList (x :: z :: t.set k (bk.add_vote v)) = linkedList (x :: z :: t)
          have hIH2 : linkedList (z :: t.set k (bk.add_vote v)) =
              linkedList (z :: t) := hIH
          rw [show linkedList (x :: z :: t.set k (bk.add_vote v)) =
              (linkedB x z && linkedList (z :: t.set k (bk.add_vote v))) from rfl,
            show linkedList (x :: z :: t) =
              (linkedB x z && linkedList (z :: t)) from rfl,
            hIH2]

theorem linkedList_append_left :
    ∀ (xs ys : List Block), linkedList (xs ++ ys) = true → linkedList xs = true := by
  intro xs
  induction xs with
  | nil => intro ys _; rfl
  | cons x t ih =>
    intro ys h
    cases t with
    | nil => rfl
    | cons z t2 =>
      rw [List.cons_append, List.cons_append] at h
      rw [show linkedList (x :: z :: (t2 ++ ys)) =
          (linkedB x z && linkedList (z :: (t2 ++ ys))) from rfl] at h
      rw [Bool.and_eq_true] at h
      have h2 := ih ys (by rw [List.cons_append]; exact h.2)
      show (linkedB x z && linkedList (z :: t2)) = true
      rw [Bool.and_eq_true]
      exact ⟨h.1, h2⟩

theorem linkedList_take (l : List Block) (m : Nat) (h : linkedList l = true) :
    linkedList (l.take m) = true := by
  apply linkedList_append_left (l.take m) (l.drop m)
  rw [List.take_append_drop]
  exact h

theorem linkedList_append_of :
    ∀ (xs ys : List Block) (p : Block), linkedList xs = true →
      xs.getLast? = some p → linkedList (p :: ys) = true →
      linkedList (xs ++ ys) = true := by
  intro xs
  induction xs with
  | nil => intro ys p _ hlast _; simp at hlast
  | cons x t ih =>
    intro ys p hx hlast hp
    cases t with
    | nil =>
      simp at hlast
      subst hlast
      exact hp
    | cons z t2 =>
      rw [List.getLast?_cons_cons] at hlast
      rw [show linkedList (x :: z :: t2) =
          (linkedB x z && linkedList (z :: t2)) from rfl, Bool.and_eq_true] at hx
      have h2 := ih ys p hx.2 hlast hp
      rw [List.cons_append, List.cons_append]
      rw [show linkedList (x :: z :: (t2 ++ ys)) =
          (linkedB x z && linkedList (z :: (t2 ++ ys))) from rfl, Bool.and_eq_true]
      refine ⟨hx.1, ?_⟩
      rw [← List.cons_append]
      exact h2

theorem walkAdjust_linked :
    ∀ (l : List Block) (prev : Block) (out : List Block),
      walkAdjust prev l = some out → linkedList (prev :: out) = true := by
  intro l
  induction l with
  | nil =>
    intro prev out h
    simp only [walkAdjust] at h
    injection h with h
    rw [← h]
    rfl
  | cons b rest ih =>
    intro prev out h
    simp only [walkAdjust] at h
    cases happ : prev.apply_event with
    | none => rw [happ] at h; simp at h
    | some votes =>
      rw [happ] at h
      dsimp only at h
      cases hw : walkAdjust (b.adjust_votes votes) rest with
      | none => rw [hw] at h; simp at h
      | some out2 =>
        rw [hw] at h
        dsimp only at h
        injection h with h
        subst h
        have h2 := ih (b.adjust_votes votes) out2 hw
        show (linkedB prev (b.adjust_votes votes) &&
          linkedList (b.adjust_votes votes :: out2)) = true
        rw [Bool.and_eq_true]
        refine ⟨?_, h2⟩
        unfold linkedB
        rw [happ]
        simp [keysMp_adjust]

theorem get?_some_lt {α : Type} {l : List α} {n : Nat} {a : α}
    (h : l.get? n = some a) : n < l.length := by
  rw [List.get?_eq_getElem?] at h
  by_contra hn
  rw [List.getElem?_eq_none (by omega)] at h
  exact absurd h (by simp)

/-- `Chain::swap_blocks` re-establishes the structural invariant: whenever
it returns, every block's member keys equal the key set its predecessor's
event produces. -/
theorem swap_blocks_inv (c : Chain) (i j : Nat) (c2 : Chain)
    (hinv : linkedList c.blocks = true)
    (h : c.swap_blocks i j = some c2) :
    linkedList c2.blocks = true := by
  unfold Chain.swap_blocks at h
  cases hgi : c.blocks.get? i with
  | none => rw [hgi] at h; simp at h
  | some bi =>
    rw [hgi] at h
    cases hgj : c.blocks.get? j with
    | none => rw [hgj] at h; simp at h
    | some bj =>
      rw [hgj] at h
      dsimp only at h
      have hilt : i < c.blocks.length := get?_some_lt hgi
      have hjlt : j < c.blocks.length := get?_some_lt hgj
      have hswlen : ((c.blocks.set i bj).set j bi).length = c.blocks.length := by
        simp
      by_cases hm : Nat.min i j = 0
      · rw [if_pos hm] at h
        dsimp only at h
        cases hsw : (c.blocks.set i bj).set j bi with
        | nil =>
          have := congrArg List.length hsw
          rw [hswlen, List.length_nil] at this
          omega
        | cons b0 rest =>
          rw [hsw] at h
          dsimp only [List.get?, List.drop] at h
          cases hwk : walkAdjust (b0.adjust_votes []) rest with
          | none => rw [hwk] at h; simp at h
          | some out =>
            rw [hwk] at h
            dsimp only at h
            injection h with h
            rw [← h]
            show linkedList (b0.adjust_votes [] :: out) = true
            exact walkAdjust_linked rest (b0.adjust_votes []) out hwk
      · rw [if_neg hm] at h
        dsimp only at h
        cases hprev : ((c.blocks.set i bj).set j bi).get? (Nat.min i j - 1) with
        | none => rw [hprev] at h; simp at h
        | some prev =>
          rw [hprev] at h
          dsimp only at h
          cases hwk :
              walkAdjust prev (((c.blocks.set i bj).set j bi).drop (Nat.min i j)) with
          | none => rw [hwk] at h; simp at h
          | some out =>
            rw [hwk] at h
            dsimp only at h
            injection h with h
            rw [← h]
            show linkedList
              (((c.blocks.set i bj).set j bi).take (Nat.min i j) ++ out) = true
            have htake : ((c.blocks.set i bj).set j bi).take (Nat.min i j) =
                c.blocks.take (Nat.min i j) := by
              rw [take_set_of_le _ _ (Nat.min_le_right i j),
                take_set_of_le _ _ (Nat.min_le_left i j)]
            have hminlt : Nat.min i j < c.blocks.length :=
              lt_of_le_of_lt (Nat.min_le_left i j) hilt
            have hlast :
                (((c.blocks.set i bj).set j bi).take (Nat.min i j)).getLast? =
                  some prev := by
              rw [List.getLast?_eq_getElem?, List.length_take, hswlen,
                Nat.min_eq_left (by omega)]
              rw [List.getElem?_take_of_lt (by omega)]
              rw [List.get?_eq_getElem?] at hprev
              exact hprev
            apply linkedList_append_of _ _ prev ?_ hlast
              (walkAdjust_linked _ prev out hwk)
            rw [htake]
            exact linkedList_take c.blocks (Nat.min i j) hinv

theorem settleVote_inv (c : Chain) (idx : Nat) (voter : Name) (c2 : Chain) (r : Bool)
    (hinv : linkedList c.blocks = true)
    (h : c.settleVote idx voter = some (c2, r)) :
    linkedList c2.blocks = true := by
  unfold Chain.settleVote at h
  dsimp only at h
  cases hsw : c.swap_blocks idx c.frontierIdx with
  | none => rw [hsw] at h; simp at h
  | some cm =>
    rw [hsw] at h
    dsimp only at h
    cases hg : cm.blocks.get? c.frontierIdx with
    | none => rw [hg] at h; simp at h
    | some b =>
      rw [hg] at h
      dsimp only at h
      injection h with h
      injection h with h1 h2
      have hcm := swap_blocks_inv c idx _ cm hinv hsw
      rw [← h1]
      show linkedList (cm.blocks.set c.frontierIdx (b.add_vote voter)) = true
      rw [linkedList_set_stable voter cm.blocks c.frontierIdx b hg]
      exact hcm

theorem append_inv (c : Chain) (b : Block) (hinv : linkedList c.blocks = true)
    (hlink : appendLink c b) : linkedList (c.append b).blocks = true := by
  show linkedList (c.blocks ++ [b]) = true
  unfold appendLink at hlink
  cases hlast : c.blocks.getLast? with
  | none =>
    have hnil : c.blocks = [] := by
      cases hb : c.blocks with
      | nil => rfl
      | cons x xs => rw [hb] at hlast; simp [List.getLast?] at hlast
    rw [hnil]
    rfl
  | some t =>
    rw [hlast] at hlink
    dsimp only at hlink
    apply linkedList_append_of c.blocks [b] t hinv hlast
    show (linkedB t b && linkedList [b]) = true
    rw [Bool.and_eq_true]
    exact ⟨hlink, rfl⟩

theorem appendLink_from_event (c : Chain) (tail : Block) (e : NetworkEvent) (nb : Block)
    (hlast : c.blocks.getLast? = some tail) (hfe : tail.from_event e = some nb) :
    appendLink c nb := by
  unfold appendLink
  rw [hlast]
  dsimp only
  simp only [Block.from_event] at hfe
  cases happ : tail.apply_event with
  | none => rw [happ] at hfe; simp at hfe
  | some m =>
    rw [happ, Option.map_some'] at hfe
    injection hfe with hfe
    unfold linkedB
    rw [happ, ← hfe]
    simp

theorem add_node_inv (c : Chain) (x : Name) (c2 : Chain) (r : Option BlockId)
    (hinv : linkedList c.blocks = true) (h : c.add_node x = some (c2, r)) :
    linkedList c2.blocks = true := by
  unfold Chain.add_node at h
  dsimp only at h
  cases hid : idxGet c.index ⟨.nodeGained x⟩ with
  | some v =>
    rw [hid] at h
    dsimp only at h
    injection h with h
    injection h with h1 h2
    rw [← h1]
    exact hinv
  | none =>
    rw [hid] at h
    dsimp only at h
    cases hlast : c.blocks.getLast? with
    | none =>
      rw [hlast] at h
      dsimp only at h
      injection h with h
      injection h with h1 h2
      rw [← h1]
      apply append_inv c _ hinv
      unfold appendLink
      rw [hlast]
    | some tail =>
      rw [hlast] at h
      dsimp only at h
      cases hfe : tail.from_event (.nodeGained x) with
      | none => rw [hfe] at h; simp at h
      | some nb =>
        rw [hfe] at h
        dsimp only at h
        injection h with h
        injection h with h1 h2
        rw [← h1]
        exact append_inv c nb hinv (appendLink_from_event c tail _ nb hlast hfe)

theorem remove_node_inv (c : Chain) (x : Name) (c2 : Chain) (r : Option BlockId)
    (hinv : linkedList c.blocks = true) (h : c.remove_node x = some (c2, r)) :
    linkedList c2.blocks = true := by
  unfold Chain.remove_node at h
  dsimp only at h
  cases hid : idxGet c.index ⟨.nodeLost x⟩ with
  | some v =>
    rw [hid] at h
    dsimp only at h
    injection h with h
    injection h with h1 h2
    rw [← h1]
    exact hinv
  | none =>
    rw [hid] at h
    dsimp only at h
    cases hlast : c.blocks.getLast? with
    | none =>
      rw [hlast] at h
      dsimp only at h
      injection h with h
      injection h with h1 h2
      rw [← h1]
      exact hinv
    | some tail =>
      rw [hlast] at h
      dsimp only at h
      cases hfe : tail.from_event (.nodeLost x) with
      | none => rw [hfe] at h; simp at h
      | some nb =>
        rw [hfe] at h
        dsimp only at h
        injection h with h
        injection h with h1 h2
        rw [← h1]
        exact append_inv c nb hinv (appendLink_from_event c tail _ nb hlast hfe)

theorem add_vote_inv (c : Chain) (id : BlockId) (voter : Name) (c2 : Chain) (r : Bool)
    (hinv : linkedList c.blocks = true) (h : c.add_vote id voter = some (c2, r)) :
    linkedList c2.blocks = true := by
  unfold Chain.add_vote at h
  cases hid : idxGet c.index id with
  | some index =>
    rw [hid] at h
    dsimp only at h
    cases hg : c.blocks.get? index with
    | none => rw [hg] at h; simp at h
    | some b =>
      rw [hg] at h
      dsimp only at h
      by_cases hcons : b.has_consensus = true
      · rw [if_pos hcons] at h
        injection h with h
        injection h with h1 h2
        rw [← h1]
        show linkedList (c.blocks.set index (b.add_vote voter)) = true
        rw [linkedList_set_stable voter c.blocks index b hg]
        exact hinv
      · rw [if_neg hcons] at h
        exact settleVote_inv c index voter c2 r hinv h
  | none =>
    rw [hid] at h
    dsimp only at h
    cases hsyn : synthBlock c id.event with
    | none => rw [hsyn] at h; simp at h
    | some nb =>
      rw [hsyn] at h
      dsimp only at h
      have hlink : appendLink c nb := by
        unfold synthBlock at hsyn
        cases hlast : c.blocks.getLast? with
        | none =>
          unfold appendLink
          rw [hlast]
        | some tail =>
          rw [hlast] at hsyn
          exact appendLink_from_event c tail _ nb hlast hsyn
      exact settleVote_inv _ _ voter c2 r (append_inv c nb hinv hlink) h

/-- C5: the claim as stated is false — `append` takes an arbitrary block,
and appending a block whose member keys differ from the key set the tail's
event produces yields a reachable chain violating the invariant. -/
theorem append_breaks_inv :
    ¬ chainInv ((Chain.new.append ⟨.nodeGained 1, [], []⟩).append
      ⟨.nodeGained 2, [(3, false)], []⟩) := by
  decide

/-- C5 (amended): the empty chain satisfies the structural invariant
(`blocks[i].members.keys() = apply_event(blocks[i-1]).keys()` for every
`i > 0`), and every non-aborting `add_node`, `remove_node` and `add_vote`
preserves it, as does `append` restricted to blocks linked to the current
tail. -/
theorem chain_ops_preserve_inv :
    chainInv Chain.new ∧
    (∀ (c : Chain) (b : Block), chainInv c → appendLink c b → chainInv (c.append b)) ∧
    (∀ (c : Chain) (x : Name) (c2 : Chain) (r : Option BlockId), chainInv c →
      c.add_node x = some (c2, r) → chainInv c2) ∧
    (∀ (c : Chain) (x : Name) (c2 : Chain) (r : Option BlockId), chainInv c →
      c.remove_node x = some (c2, r) → chainInv c2) ∧
    (∀ (c : Chain) (id : BlockId) (v : Name) (c2 : Chain) (r : Bool), chainInv c →
      c.add_vote id v = some (c2, r) → chainInv c2) :=
  ⟨rfl, fun c b h1 h2 => append_inv c b h1 h2,
   fun c x c2 r h1 h2 => add_node_inv c x c2 r h1 h2,
   fun c x c2 r h1 h2 => remove_node_inv c x c2 r h1 h2,
   fun c id v c2 r h1 h2 => add_vote_inv c id v c2 r h1 h2⟩

/-- C5 witness: the invariant holds after a concrete `add_vote` on the
scenario-B chain. -/
theorem chain_ops_preserve_inv_witness : chainInv scenBc2 :=
  chain_ops_preserve_inv.2.2.2.2 scenBc1 (idG 4) 1 scenBc2 false (by decide) (by decide)

end Ewok
